import Mathlib

/-!
# Portfolio `script.js`: particle field and typewriter

A shallow embedding of two routines of `src/script.js`:

* `initParticles` (lines 195-272): the `Particle` class, the `animate` frame
  body and the resize handler;
* `startTypewriter` (lines 151-192): the `type` tick.

JavaScript numbers are embedded as rationals (`ℚ`).  `Particle.update` and the
frame body take every arithmetic operation of the source as the exact operation;
`Particle.update64` is the same method with its two additions rounded to
binary64 (`round64`), as the host computes them, and is used where the rounding
decides the property.  `Math.random` and `Math.sqrt` are host functions; their
results enter the embedding as parameters.  Both routines return at once when
their page element is absent; the embedding is of the case where the element
exists.
-/

namespace Portfolio

/-! ## Data model -/

/-- The drawing surface as far as the script reads it: `canvas.width` and
`canvas.height`. -/
structure Canvas where
  width : ℚ
  height : ℚ
deriving DecidableEq

/-- The fields of `class Particle` (script.js 206-213). -/
structure Particle where
  x : ℚ
  y : ℚ
  size : ℚ
  speedX : ℚ
  speedY : ℚ
deriving DecidableEq

/-- The `constructor()` of `Particle` (script.js 207-213); `r1 .. r5` are the
results of its five successive calls of `Math.random()`. -/
def Particle.constructor (canvas : Canvas) (r1 r2 r3 r4 r5 : ℚ) : Particle :=
  { x := r1 * canvas.width
    y := r2 * canvas.height
    size := r3 * 2 + 1
    speedX := r4 * 1 - 0.5
    speedY := r5 * 1 - 0.5 }

/-- The method `update()` of `Particle` (script.js 215-221). -/
def Particle.update (canvas : Canvas) (p : Particle) : Particle :=
  let x := p.x + p.speedX
  let y := p.y + p.speedY
  let speedX := if x < 0 ∨ x > canvas.width then p.speedX * -1 else p.speedX
  let speedY := if y < 0 ∨ y > canvas.height then p.speedY * -1 else p.speedY
  { x := x, y := y, size := p.size, speedX := speedX, speedY := speedY }

/-- The calls the script makes on the 2D context, in the order it makes them.
Colours are the fixed `rgba(50, 184, 198, a)`; only the alpha `a` is kept.
`arc x y r` is `ctx.arc(x, y, r, 0, Math.PI * 2)`. -/
inductive DrawCmd where
  | clearRect (x y w h : ℚ)
  | fillStyle (alpha : ℚ)
  | strokeStyle (alpha : ℚ)
  | lineWidth (w : ℚ)
  | beginPath
  | arc (x y r : ℚ)
  | fill
  | moveTo (x y : ℚ)
  | lineTo (x y : ℚ)
  | stroke
deriving DecidableEq

/-- The method `draw()` of `Particle` (script.js 223-228). -/
def Particle.draw (p : Particle) : List DrawCmd :=
  [DrawCmd.fillStyle 0.5, DrawCmd.beginPath, DrawCmd.arc p.x p.y p.size, DrawCmd.fill]

/-- The state `initParticles` closes over: the canvas size and the array
`particles`. -/
structure Field where
  canvas : Canvas
  particles : List Particle
deriving DecidableEq

/-- The value `0.2 - distance / 500` interpolated into `strokeStyle`
(script.js 252). -/
def strokeAlpha (distance : ℚ) : ℚ := 0.2 - distance / 500

/-- The body of the inner loop of `animate` (script.js 247-258) for the
particles `a = particles[i]` and `b = particles[j]`; `msqrt` is `Math.sqrt`. -/
def connectPair (msqrt : ℚ → ℚ) (a b : Particle) : List DrawCmd :=
  let dx := a.x - b.x
  let dy := a.y - b.y
  let distance := msqrt (dx * dx + dy * dy)
  if distance < 100 then
    [DrawCmd.strokeStyle (strokeAlpha distance), DrawCmd.lineWidth 1, DrawCmd.beginPath,
      DrawCmd.moveTo a.x a.y, DrawCmd.lineTo b.x b.y, DrawCmd.stroke]
  else []

/-- One iteration `(i, j)` of the nested loops of `animate`: the two array
reads followed by the loop body. -/
def connectAt (msqrt : ℚ → ℚ) (ps : List Particle) (i j : Nat) : List DrawCmd :=
  match ps[i]?, ps[j]? with
  | some a, some b => connectPair msqrt a b
  | _, _ => []

/-- The nested loops `for i in 0 .. length`, `for j in i + 1 .. length` of
`animate` (script.js 245-260). -/
def connectNearby (msqrt : ℚ → ℚ) (ps : List Particle) : List DrawCmd :=
  (List.range ps.length).flatMap fun i =>
    (List.range' (i + 1) (ps.length - (i + 1))).flatMap fun j => connectAt msqrt ps i j

/-- The `forEach` of `animate` (script.js 239-242) on the state: every particle
is updated in place. -/
def updateAll (canvas : Canvas) (ps : List Particle) : List Particle :=
  ps.map (Particle.update canvas)

/-- The frame body `animate` (script.js 236-261), without the re-arming
`requestAnimationFrame`: the new state and the drawing calls of the frame. -/
def animate (msqrt : ℚ → ℚ) (f : Field) : Field × List DrawCmd :=
  let ps := updateAll f.canvas f.particles
  ({ canvas := f.canvas, particles := ps },
    DrawCmd.clearRect 0 0 f.canvas.width f.canvas.height ::
      (ps.flatMap Particle.draw ++ connectNearby msqrt ps))

/-- The state after `k` frames. -/
def frames (msqrt : ℚ → ℚ) : Nat → Field → Field
  | 0, f => f
  | k + 1, f => frames msqrt k (animate msqrt f).1

/-- The resize handler (script.js 268-271); `w` and `h` are
`window.innerWidth` and `window.innerHeight` at the event. -/
def resize (w h : ℚ) (f : Field) : Field :=
  { canvas := { width := w, height := h }, particles := f.particles }

/-- The particle after `n` calls of `update()` under a fixed canvas. -/
def updates (canvas : Canvas) : Nat → Particle → Particle
  | 0, p => p
  | n + 1, p => updates canvas n (Particle.update canvas p)

/-- The creation loop of `initParticles` (script.js 232-234): `particleCount`
particles are pushed, the `i`-th built from the random draws `5 i .. 5 i + 4` of
the stream `rand`. -/
def createParticles (canvas : Canvas) (rand : Nat → ℚ) (particleCount : Nat) : List Particle :=
  (List.range particleCount).map fun i =>
    Particle.constructor canvas (rand (5 * i)) (rand (5 * i + 1)) (rand (5 * i + 2))
      (rand (5 * i + 3)) (rand (5 * i + 4))

/-- An executable stand-in for `Math.sqrt`, exact on perfect squares, used to
run the embedding on examples. -/
def sqrtFloor (q : ℚ) : ℚ := (Nat.sqrt ⌊q⌋.toNat : ℚ)

/-- The horizontal bounce invariant: the particle is inside `[0, width]`, or it
is outside and its next position is inside. -/
def NearX (c : Canvas) (p : Particle) : Prop :=
  (0 ≤ p.x ∧ p.x ≤ c.width) ∨
    ((p.x < 0 ∨ p.x > c.width) ∧ 0 ≤ p.x + p.speedX ∧ p.x + p.speedX ≤ c.width)

/-- The vertical bounce invariant. -/
def NearY (c : Canvas) (p : Particle) : Prop :=
  (0 ≤ p.y ∧ p.y ≤ c.height) ∨
    ((p.y < 0 ∨ p.y > c.height) ∧ 0 ≤ p.y + p.speedY ∧ p.y + p.speedY ≤ c.height)

/-- Whether the particles at indices `i` and `j` of `ps` are less than 100
apart, the distance being `msqrt (dx * dx + dy * dy)`. -/
def closeAt (msqrt : ℚ → ℚ) (ps : List Particle) (i j : Nat) : Bool :=
  match ps[i]?, ps[j]? with
  | some a, some b =>
    decide (msqrt ((a.x - b.x) * (a.x - b.x) + (a.y - b.y) * (a.y - b.y)) < 100)
  | _, _ => false

/-! ## Binary64 additions -/

/-- Rounding of a rational to the nearest integer, a tie going to the even
neighbour. -/
def roundHalfEven (q : ℚ) : ℤ :=
  if q - ⌊q⌋ < 1 / 2 then ⌊q⌋
  else if 1 / 2 < q - ⌊q⌋ then ⌊q⌋ + 1
  else if ⌊q⌋ % 2 = 0 then ⌊q⌋ else ⌊q⌋ + 1

/-- The exponent of the spacing of binary64 values around `q`: 52 below the
exponent of the binade of `|q|`, which is never below `-1022` (subnormals share
the spacing `2 ^ (-1074)`). -/
def ulpExp (q : ℚ) : ℤ := max (Int.log 2 |q|) (-1022) - 52

/-- The binary64 value nearest to `q`, ties to even: the rounding the host
applies to the exact result of an addition.  Overflow to an infinity (results of
magnitude `2 ^ 1024` and above) is not represented. -/
def round64 (q : ℚ) : ℚ := (roundHalfEven (q / 2 ^ ulpExp q) : ℚ) * 2 ^ ulpExp q

/-- The method `update()` of `Particle` (script.js 215-221) with the two `+=`
rounded to binary64.  The multiplication by `-1` and the comparisons are exact
on binary64 values. -/
def Particle.update64 (canvas : Canvas) (p : Particle) : Particle :=
  let x := round64 (p.x + p.speedX)
  let y := round64 (p.y + p.speedY)
  let speedX := if x < 0 ∨ x > canvas.width then p.speedX * -1 else p.speedX
  let speedY := if y < 0 ∨ y > canvas.height then p.speedY * -1 else p.speedY
  { x := x, y := y, size := p.size, speedX := speedX, speedY := speedY }

/-- The particle after `n` calls of `update()` with binary64 additions, under a
fixed canvas. -/
def updates64 (canvas : Canvas) : Nat → Particle → Particle
  | 0, p => p
  | n + 1, p => updates64 canvas n (Particle.update64 canvas p)

/-! ## Typewriter -/

/-- The constant array `phrases` of `startTypewriter` (script.js 155-160). -/
def phrases : List String :=
  ["Full Stack Developer", "UI/UX Enthusiast", "Problem Solver", "Code Craftsman"]

/-- The host method `String.prototype.substring(start, end)` on strings of
one-unit characters: both indices are clamped to `[0, length]` and swapped when
out of order. -/
def substring (s : String) (start stop : Int) : String :=
  let a := min start.toNat s.length
  let b := min stop.toNat s.length
  String.mk ((s.data.drop (min a b)).take (max a b - min a b))

/-- The variables `type` closes over (script.js 162-164) and the text it
writes to `textElement.textContent`. -/
structure Typewriter where
  phraseIndex : Nat
  charIndex : Int
  isDeleting : Bool
  textContent : String
deriving DecidableEq

/-- The state `startTypewriter` sets up before the first call of `type`;
`text` is whatever the page had in the element. -/
def Typewriter.start (text : String) : Typewriter :=
  { phraseIndex := 0, charIndex := 0, isDeleting := false, textContent := text }

/-- One call of `type()` (script.js 166-189): the new state and the delay
`typeSpeed` handed to `setTimeout`.  `none` is the `TypeError` of calling
`substring` on `undefined` when `phraseIndex` is outside the array. -/
def type (s : Typewriter) : Option (Typewriter × Nat) :=
  match phrases[s.phraseIndex]? with
  | none => none
  | some currentPhrase =>
    let textContent :=
      if s.isDeleting then substring currentPhrase 0 (s.charIndex - 1)
      else substring currentPhrase 0 (s.charIndex + 1)
    let charIndex := if s.isDeleting then s.charIndex - 1 else s.charIndex + 1
    let typeSpeed := if s.isDeleting then 50 else 100
    if !s.isDeleting && charIndex == (currentPhrase.length : Int) then
      some ({ phraseIndex := s.phraseIndex, charIndex := charIndex, isDeleting := true,
              textContent := textContent }, 2000)
    else if s.isDeleting && charIndex == 0 then
      some ({ phraseIndex := (s.phraseIndex + 1) % phrases.length, charIndex := charIndex,
              isDeleting := false, textContent := textContent }, 500)
    else
      some ({ phraseIndex := s.phraseIndex, charIndex := charIndex,
              isDeleting := s.isDeleting, textContent := textContent }, typeSpeed)

/-- The state after `n` successive calls of `type()`, when none of them throws. -/
def ticks : Nat → Typewriter → Option Typewriter
  | 0, s => some s
  | n + 1, s =>
    match type s with
    | none => none
    | some (s1, _) => ticks n s1

/-- The invariant of the typewriter at the start of a tick: `phraseIndex` reads
a phrase of the array, `charIndex` lies within it, a deleting tick has a character
to delete and a typing tick has a character left to type. -/
def TypeInv (s : Typewriter) : Prop :=
  ∃ cur, phrases[s.phraseIndex]? = some cur ∧
    0 ≤ s.charIndex ∧ s.charIndex ≤ (cur.length : Int) ∧
    (s.isDeleting = true → 1 ≤ s.charIndex) ∧
    (s.isDeleting = false → s.charIndex < (cur.length : Int))

/-- The text shown is the first `charIndex` characters of the current phrase. -/
def ShowsTyped (s : Typewriter) : Prop :=
  ∃ cur, phrases[s.phraseIndex]? = some cur ∧
    s.textContent = String.mk (cur.data.take s.charIndex.toNat)

/-! ## Single update step -/

/-- C1: one `update()` adds the velocity to the position, keeps the size, negates
`speedX` when the new `x` is below `0` or above the width and keeps it otherwise,
and does the same for `speedY` against the height; the comparisons are strict, so
a new `x` equal to `0` or to the width keeps the velocity (on a 200-wide canvas,
`x = 199.5` with `speedX = 0.5` moves to `200` with `speedX` still `0.5`). -/
theorem update_spec (W H : ℚ) (p : Particle) :
    (Particle.update ⟨W, H⟩ p).x = p.x + p.speedX ∧
    (Particle.update ⟨W, H⟩ p).y = p.y + p.speedY ∧
    (Particle.update ⟨W, H⟩ p).size = p.size ∧
    (Particle.update ⟨W, H⟩ p).speedX =
      (if p.x + p.speedX < 0 ∨ p.x + p.speedX > W then -p.speedX else p.speedX) ∧
    (Particle.update ⟨W, H⟩ p).speedY =
      (if p.y + p.speedY < 0 ∨ p.y + p.speedY > H then -p.speedY else p.speedY) ∧
    (0 ≤ W → (p.x + p.speedX = 0 ∨ p.x + p.speedX = W) →
      (Particle.update ⟨W, H⟩ p).speedX = p.speedX) ∧
    (0 ≤ H → (p.y + p.speedY = 0 ∨ p.y + p.speedY = H) →
      (Particle.update ⟨W, H⟩ p).speedY = p.speedY) ∧
    Particle.update ⟨200, 200⟩ ⟨199.5, 100, 1, 0.5, 0⟩ = ⟨200, 100, 1, 0.5, 0⟩ := by
  refine ⟨rfl, rfl, rfl, ?_, ?_, ?_, ?_, ?_⟩
  · simp [Particle.update]
  · simp [Particle.update]
  · intro hW h
    have hn : ¬ (p.x + p.speedX < 0 ∨ p.x + p.speedX > W) := by
      rcases h with h | h <;> rw [h] <;> simp [hW]
    simp only [Particle.update, if_neg hn]
  · intro hH h
    have hn : ¬ (p.y + p.speedY < 0 ∨ p.y + p.speedY > H) := by
      rcases h with h | h <;> rw [h] <;> simp [hH]
    simp only [Particle.update, if_neg hn]
  · norm_num [Particle.update]

/-- Witness of C1 on a 200 by 200 canvas: the particle at `x = 199.5` with
`speedX = 0.5` arrives exactly on the right edge and keeps its velocity. -/
theorem update_spec_witness :
    (0 : ℚ) ≤ 200 ∧ ((199.5 : ℚ) + 0.5 = 0 ∨ (199.5 : ℚ) + 0.5 = 200) ∧
    (Particle.update ⟨200, 200⟩ ⟨199.5, 100, 1, 0.5, 0⟩).speedX = 0.5 :=
  ⟨by norm_num, Or.inr (by norm_num),
    (update_spec 200 200 ⟨199.5, 100, 1, 0.5, 0⟩).2.2.2.2.2.1 (by norm_num)
      (Or.inr (by norm_num))⟩

/-! ## Repeated updates of one particle -/

theorem updates_succ (c : Canvas) (n : Nat) (p : Particle) :
    updates c (n + 1) p = Particle.update c (updates c n p) := by
  induction n generalizing p with
  | zero => rfl
  | succ n ih => exact ih (Particle.update c p)

theorem update_x (c : Canvas) (p : Particle) : (Particle.update c p).x = p.x + p.speedX := rfl

theorem update_y (c : Canvas) (p : Particle) : (Particle.update c p).y = p.y + p.speedY := rfl

theorem update_speedX (c : Canvas) (p : Particle) :
    (Particle.update c p).speedX =
      if p.x + p.speedX < 0 ∨ p.x + p.speedX > c.width then -p.speedX else p.speedX := by
  simp [Particle.update]

theorem update_speedY (c : Canvas) (p : Particle) :
    (Particle.update c p).speedY =
      if p.y + p.speedY < 0 ∨ p.y + p.speedY > c.height then -p.speedY else p.speedY := by
  simp [Particle.update]

theorem update_abs_speedX (c : Canvas) (p : Particle) :
    |(Particle.update c p).speedX| = |p.speedX| := by
  rw [update_speedX]; split_ifs <;> simp

theorem update_abs_speedY (c : Canvas) (p : Particle) :
    |(Particle.update c p).speedY| = |p.speedY| := by
  rw [update_speedY]; split_ifs <;> simp

theorem updates_abs_speedX (c : Canvas) (n : Nat) (p : Particle) :
    |(updates c n p).speedX| = |p.speedX| := by
  induction n with
  | zero => rfl
  | succ n ih => rw [updates_succ, update_abs_speedX, ih]

theorem updates_abs_speedY (c : Canvas) (n : Nat) (p : Particle) :
    |(updates c n p).speedY| = |p.speedY| := by
  induction n with
  | zero => rfl
  | succ n ih => rw [updates_succ, update_abs_speedY, ih]

theorem update_nearX (c : Canvas) (p : Particle) (h : NearX c p) :
    NearX c (Particle.update c p) := by
  unfold NearX at *
  rw [update_x, update_speedX]
  rcases h with ⟨h0, h1⟩ | ⟨_, h0, h1⟩
  · by_cases hc : p.x + p.speedX < 0 ∨ p.x + p.speedX > c.width
    · right
      rw [if_pos hc]
      exact ⟨hc, by linarith, by linarith⟩
    · left
      push_neg at hc
      exact hc
  · left
    exact ⟨h0, h1⟩

theorem update_nearY (c : Canvas) (p : Particle) (h : NearY c p) :
    NearY c (Particle.update c p) := by
  unfold NearY at *
  rw [update_y, update_speedY]
  rcases h with ⟨h0, h1⟩ | ⟨_, h0, h1⟩
  · by_cases hc : p.y + p.speedY < 0 ∨ p.y + p.speedY > c.height
    · right
      rw [if_pos hc]
      exact ⟨hc, by linarith, by linarith⟩
    · left
      push_neg at hc
      exact hc
  · left
    exact ⟨h0, h1⟩

theorem updates_nearX (c : Canvas) (n : Nat) (p : Particle) (h : NearX c p) :
    NearX c (updates c n p) := by
  induction n with
  | zero => exact h
  | succ n ih => rw [updates_succ]; exact update_nearX c _ ih

theorem updates_nearY (c : Canvas) (n : Nat) (p : Particle) (h : NearY c p) :
    NearY c (updates c n p) := by
  induction n with
  | zero => exact h
  | succ n ih => rw [updates_succ]; exact update_nearY c _ ih

theorem nearX_bounds (c : Canvas) (p : Particle) (h : NearX c p) :
    -|p.speedX| ≤ p.x ∧ p.x ≤ c.width + |p.speedX| := by
  have h1 := neg_abs_le p.speedX
  have h2 := le_abs_self p.speedX
  have h3 := abs_nonneg p.speedX
  rcases h with ⟨h0, hw⟩ | ⟨_, h0, hw⟩ <;> constructor <;> linarith

theorem nearY_bounds (c : Canvas) (p : Particle) (h : NearY c p) :
    -|p.speedY| ≤ p.y ∧ p.y ≤ c.height + |p.speedY| := by
  have h1 := neg_abs_le p.speedY
  have h2 := le_abs_self p.speedY
  have h3 := abs_nonneg p.speedY
  rcases h with ⟨h0, hw⟩ | ⟨_, h0, hw⟩ <;> constructor <;> linarith

theorem nearX_next (c : Canvas) (p : Particle) (h : NearX c p) :
    (0 ≤ p.x ∧ p.x ≤ c.width) ∨
      (0 ≤ (Particle.update c p).x ∧ (Particle.update c p).x ≤ c.width) := by
  rcases h with h | ⟨_, h⟩
  · exact Or.inl h
  · exact Or.inr h

theorem nearY_next (c : Canvas) (p : Particle) (h : NearY c p) :
    (0 ≤ p.y ∧ p.y ≤ c.height) ∨
      (0 ≤ (Particle.update c p).y ∧ (Particle.update c p).y ≤ c.height) := by
  rcases h with h | ⟨_, h⟩
  · exact Or.inl h
  · exact Or.inr h

/-- C8: with the canvas fixed, a particle that starts with `0 ≤ x ≤ W` is, after
any number of updates, either inside `[0, W]` or outside with `x + speedX` inside
(so the next update brings it back); hence `x` stays in `[-|vx|, W + |vx|]` and is
never outside at the end of two consecutive updates.  The same holds for `y`
against `H`, independently of `x`. -/
theorem bounce_stays_near (W H : ℚ) (p : Particle) (n : Nat) :
    (0 ≤ p.x ∧ p.x ≤ W →
      ((0 ≤ (updates ⟨W, H⟩ n p).x ∧ (updates ⟨W, H⟩ n p).x ≤ W) ∨
        (((updates ⟨W, H⟩ n p).x < 0 ∨ (updates ⟨W, H⟩ n p).x > W) ∧
          0 ≤ (updates ⟨W, H⟩ n p).x + (updates ⟨W, H⟩ n p).speedX ∧
          (updates ⟨W, H⟩ n p).x + (updates ⟨W, H⟩ n p).speedX ≤ W)) ∧
      (-|p.speedX| ≤ (updates ⟨W, H⟩ n p).x ∧ (updates ⟨W, H⟩ n p).x ≤ W + |p.speedX|) ∧
      ((0 ≤ (updates ⟨W, H⟩ n p).x ∧ (updates ⟨W, H⟩ n p).x ≤ W) ∨
        (0 ≤ (updates ⟨W, H⟩ (n + 1) p).x ∧ (updates ⟨W, H⟩ (n + 1) p).x ≤ W))) ∧
    (0 ≤ p.y ∧ p.y ≤ H →
      ((0 ≤ (updates ⟨W, H⟩ n p).y ∧ (updates ⟨W, H⟩ n p).y ≤ H) ∨
        (((updates ⟨W, H⟩ n p).y < 0 ∨ (updates ⟨W, H⟩ n p).y > H) ∧
          0 ≤ (updates ⟨W, H⟩ n p).y + (updates ⟨W, H⟩ n p).speedY ∧
          (updates ⟨W, H⟩ n p).y + (updates ⟨W, H⟩ n p).speedY ≤ H)) ∧
      (-|p.speedY| ≤ (updates ⟨W, H⟩ n p).y ∧ (updates ⟨W, H⟩ n p).y ≤ H + |p.speedY|) ∧
      ((0 ≤ (updates ⟨W, H⟩ n p).y ∧ (updates ⟨W, H⟩ n p).y ≤ H) ∨
        (0 ≤ (updates ⟨W, H⟩ (n + 1) p).y ∧ (updates ⟨W, H⟩ (n + 1) p).y ≤ H))) := by
  constructor
  · intro h
    have hn : NearX ⟨W, H⟩ (updates ⟨W, H⟩ n p) := updates_nearX _ n p (Or.inl h)
    have hb := nearX_bounds _ _ hn
    rw [updates_abs_speedX] at hb
    exact ⟨hn, hb, by rw [updates_succ]; exact nearX_next _ _ hn⟩
  · intro h
    have hn : NearY ⟨W, H⟩ (updates ⟨W, H⟩ n p) := updates_nearY _ n p (Or.inl h)
    have hb := nearY_bounds _ _ hn
    rw [updates_abs_speedY] at hb
    exact ⟨hn, hb, by rw [updates_succ]; exact nearY_next _ _ hn⟩

/-- Witness of C8: on a 200 by 200 canvas the particle at `(0.2, 100)` with
velocity `(-0.5, 0)` is outside after one update and back inside after two. -/
theorem bounce_stays_near_witness :
    ((0 : ℚ) ≤ 0.2 ∧ (0.2 : ℚ) ≤ 200) ∧
    ((0 ≤ (updates ⟨200, 200⟩ 1 ⟨0.2, 100, 1, -0.5, 0⟩).x ∧
        (updates ⟨200, 200⟩ 1 ⟨0.2, 100, 1, -0.5, 0⟩).x ≤ 200) ∨
      (0 ≤ (updates ⟨200, 200⟩ (1 + 1) ⟨0.2, 100, 1, -0.5, 0⟩).x ∧
        (updates ⟨200, 200⟩ (1 + 1) ⟨0.2, 100, 1, -0.5, 0⟩).x ≤ 200)) :=
  ⟨by norm_num,
    ((bounce_stays_near 200 200 ⟨0.2, 100, 1, -0.5, 0⟩ 1).1 (by norm_num)).2.2⟩

/-- The claim C2 as stated fails: the particle built by the constructor on a
200 by 200 canvas from the draws `0.001, 0.5, 0, 0, 0.5` starts at `(0.2, 100)`
inside the canvas with velocity `(-0.5, 0)` in range, and after one update its
`x` is `-0.3`, below `0`. -/
theorem created_in_bounds_counterexample :
    (0 ≤ (Particle.constructor ⟨200, 200⟩ 0.001 0.5 0 0 0.5).x ∧
      (Particle.constructor ⟨200, 200⟩ 0.001 0.5 0 0 0.5).x ≤ 200 ∧
      0 ≤ (Particle.constructor ⟨200, 200⟩ 0.001 0.5 0 0 0.5).y ∧
      (Particle.constructor ⟨200, 200⟩ 0.001 0.5 0 0 0.5).y ≤ 200 ∧
      -0.5 ≤ (Particle.constructor ⟨200, 200⟩ 0.001 0.5 0 0 0.5).speedX ∧
      (Particle.constructor ⟨200, 200⟩ 0.001 0.5 0 0 0.5).speedX < 0.5 ∧
      -0.5 ≤ (Particle.constructor ⟨200, 200⟩ 0.001 0.5 0 0 0.5).speedY ∧
      (Particle.constructor ⟨200, 200⟩ 0.001 0.5 0 0 0.5).speedY < 0.5) ∧
    (updates ⟨200, 200⟩ 1 (Particle.constructor ⟨200, 200⟩ 0.001 0.5 0 0 0.5)).x = -0.3 ∧
    ¬ (0 ≤ (updates ⟨200, 200⟩ 1 (Particle.constructor ⟨200, 200⟩ 0.001 0.5 0 0 0.5)).x) := by
  norm_num [Particle.constructor, updates, Particle.update]

/-- C2 (amended): a particle that starts inside `[0, W] × [0, H]` with velocity
components in `[-0.5, 0.5)` has, after any number of updates under the fixed
canvas, `-0.5 ≤ x ≤ W + 0.5` and `-0.5 ≤ y ≤ H + 0.5`, and a coordinate that is
outside its interval at the end of one update is inside at the end of the next. -/
theorem created_stays_near (W H : ℚ) (p : Particle)
    (hx : 0 ≤ p.x ∧ p.x ≤ W) (hy : 0 ≤ p.y ∧ p.y ≤ H)
    (hvx : -0.5 ≤ p.speedX ∧ p.speedX < 0.5) (hvy : -0.5 ≤ p.speedY ∧ p.speedY < 0.5)
    (n : Nat) :
    (-0.5 ≤ (updates ⟨W, H⟩ n p).x ∧ (updates ⟨W, H⟩ n p).x ≤ W + 0.5) ∧
    (-0.5 ≤ (updates ⟨W, H⟩ n p).y ∧ (updates ⟨W, H⟩ n p).y ≤ H + 0.5) ∧
    ((0 ≤ (updates ⟨W, H⟩ n p).x ∧ (updates ⟨W, H⟩ n p).x ≤ W) ∨
      (0 ≤ (updates ⟨W, H⟩ (n + 1) p).x ∧ (updates ⟨W, H⟩ (n + 1) p).x ≤ W)) ∧
    ((0 ≤ (updates ⟨W, H⟩ n p).y ∧ (updates ⟨W, H⟩ n p).y ≤ H) ∨
      (0 ≤ (updates ⟨W, H⟩ (n + 1) p).y ∧ (updates ⟨W, H⟩ (n + 1) p).y ≤ H)) := by
  have hnx : NearX ⟨W, H⟩ (updates ⟨W, H⟩ n p) := updates_nearX _ n p (Or.inl hx)
  have hny : NearY ⟨W, H⟩ (updates ⟨W, H⟩ n p) := updates_nearY _ n p (Or.inl hy)
  have hbx := nearX_bounds _ _ hnx
  have hby := nearY_bounds _ _ hny
  rw [updates_abs_speedX] at hbx
  rw [updates_abs_speedY] at hby
  have hax : |p.speedX| ≤ 0.5 := abs_le.mpr ⟨hvx.1, le_of_lt hvx.2⟩
  have hay : |p.speedY| ≤ 0.5 := abs_le.mpr ⟨hvy.1, le_of_lt hvy.2⟩
  refine ⟨⟨by linarith [hbx.1], by linarith [hbx.2]⟩, ⟨by linarith [hby.1], by linarith [hby.2]⟩,
    ?_, ?_⟩
  · rw [updates_succ]; exact nearX_next _ _ hnx
  · rw [updates_succ]; exact nearY_next _ _ hny

/-- Witness of C2 (amended) at the particle of the counterexample, after one
update. -/
theorem created_stays_near_witness :
    -0.5 ≤ (updates ⟨200, 200⟩ 1 (Particle.constructor ⟨200, 200⟩ 0.001 0.5 0 0 0.5)).x ∧
    (updates ⟨200, 200⟩ 1 (Particle.constructor ⟨200, 200⟩ 0.001 0.5 0 0 0.5)).x ≤ 200 + 0.5 :=
  (created_stays_near 200 200 (Particle.constructor ⟨200, 200⟩ 0.001 0.5 0 0 0.5)
    (by norm_num [Particle.constructor]) (by norm_num [Particle.constructor])
    (by norm_num [Particle.constructor]) (by norm_num [Particle.constructor]) 1).1

/-! ## Bounce at the left edge -/

/-- The claim C4 as stated fails: on a 200 by 200 canvas the particle at `x = 0`
with `speedX = -0.3` has, after one update, `speedX = 0.3` but `x = -0.3`, not
`0.3`: the velocity is reversed and the position is not reflected. -/
theorem left_edge_counterexample :
    ((0 : ℚ) < 200 ∧ (0 : ℚ) < 0.3 ∧ (0.3 : ℚ) ≤ 0.5) ∧
    (Particle.update ⟨200, 200⟩ ⟨0, 100, 1, -0.3, 0⟩).speedX = 0.3 ∧
    (Particle.update ⟨200, 200⟩ ⟨0, 100, 1, -0.3, 0⟩).x = -0.3 ∧
    (Particle.update ⟨200, 200⟩ ⟨0, 100, 1, -0.3, 0⟩).x ≠ 0.3 := by
  norm_num [Particle.update]

/-- C4 (amended): on every canvas, in particular every canvas of positive width,
and for every speed `v` with `0 < v ≤ 0.5`, a particle at `x = 0` with
`speedX = -v` has, after one update, `speedX = v` and `x = -v`. -/
theorem left_edge_bounce (W H v : ℚ) (p : Particle) (hv : 0 < v ∧ v ≤ 0.5)
    (hx : p.x = 0) (hs : p.speedX = -v) :
    (Particle.update ⟨W, H⟩ p).speedX = v ∧ (Particle.update ⟨W, H⟩ p).x = -v := by
  have hc : p.x + p.speedX < 0 ∨ p.x + p.speedX > W := by
    left; rw [hx, hs]; linarith [hv.1]
  rw [update_speedX, update_x, if_pos hc, hx, hs]
  constructor <;> ring

/-- Witness of C4 (amended): particle A of the end-to-end scenario, at `x = 0`
with `speedX = -0.5` on a 200-wide canvas, moves to `x = -0.5` with
`speedX = 0.5`. -/
theorem left_edge_bounce_witness :
    (Particle.update ⟨200, 200⟩ ⟨0, 100, 1, -0.5, 0⟩).speedX = 0.5 ∧
    (Particle.update ⟨200, 200⟩ ⟨0, 100, 1, -0.5, 0⟩).x = -0.5 :=
  left_edge_bounce 200 200 0.5 ⟨0, 100, 1, -0.5, 0⟩ (by norm_num) rfl (by norm_num)

/-! ## A particle beyond the right edge -/

theorem roundHalfEven_near (q : ℚ) (m : ℤ) (h1 : (m : ℚ) - 1 / 2 < q) (h2 : q < m + 1 / 2) :
    roundHalfEven q = m := by
  unfold roundHalfEven
  rcases le_or_lt (m : ℚ) q with h | h
  · have hf : ⌊q⌋ = m := Int.floor_eq_iff.mpr ⟨h, by linarith⟩
    rw [hf, if_pos (by linarith)]
  · have hf : ⌊q⌋ = m - 1 :=
      Int.floor_eq_iff.mpr ⟨by push_cast; linarith, by push_cast; linarith⟩
    rw [hf]
    push_cast
    rw [if_neg (by linarith), if_pos (by linarith)]
    ring

theorem roundHalfEven_tie (q : ℚ) (m : ℤ) (hq : q = m + 1 / 2) (hm : m % 2 = 0) :
    roundHalfEven q = m := by
  unfold roundHalfEven
  have hf : ⌊q⌋ = m := Int.floor_eq_iff.mpr ⟨by linarith, by linarith⟩
  rw [hf, if_neg (by linarith), if_neg (by linarith), if_pos hm]

theorem ulpExp_eq (q : ℚ) (e : ℤ) (h1 : (2 : ℚ) ^ e ≤ |q|) (h2 : |q| < (2 : ℚ) ^ (e + 1))
    (he : -1022 ≤ e) : ulpExp q = e - 52 := by
  unfold ulpExp
  have hpos : (0 : ℚ) < |q| := lt_of_lt_of_le (by positivity) h1
  have hle : e ≤ Int.log 2 |q| :=
    (Int.zpow_le_iff_le_log (by norm_num) hpos).mp (by exact_mod_cast h1)
  have hlt : Int.log 2 |q| < e + 1 :=
    (Int.lt_zpow_iff_log_lt (by norm_num) hpos).mp (by exact_mod_cast h2)
  have hlog : Int.log 2 |q| = e := by omega
  rw [hlog, max_eq_left he]

theorem round64_eq (q : ℚ) (e m : ℤ) (h1 : (2 : ℚ) ^ e ≤ |q|) (h2 : |q| < (2 : ℚ) ^ (e + 1))
    (he : -1022 ≤ e) (hm : roundHalfEven (q / 2 ^ (e - 52)) = m) :
    round64 q = m * 2 ^ (e - 52) := by
  unfold round64
  rw [ulpExp_eq q e h1 h2 he, hm]

theorem updates64_succ (c : Canvas) (n : Nat) (p : Particle) :
    updates64 c (n + 1) p = Particle.update64 c (updates64 c n p) := by
  induction n generalizing p with
  | zero => rfl
  | succ n ih => exact ih (Particle.update64 c p)

theorem update64_x (c : Canvas) (p : Particle) :
    (Particle.update64 c p).x = round64 (p.x + p.speedX) := rfl

theorem update64_speedX (c : Canvas) (p : Particle) :
    (Particle.update64 c p).speedX =
      if round64 (p.x + p.speedX) < 0 ∨ round64 (p.x + p.speedX) > c.width then -p.speedX
      else p.speedX := by
  simp [Particle.update64]

theorem round64_lit_x : round64 127.7 = 8986088631487693 / 70368744177664 := by
  have h := round64_eq 127.7 6 8986088631487693 (by norm_num [abs_of_pos])
    (by norm_num [abs_of_pos]) (by norm_num) (roundHalfEven_near _ _ (by norm_num) (by norm_num))
  rw [h]
  norm_num

theorem round64_lit_v : round64 0.4 = 3602879701896397 / 9007199254740992 := by
  have h := round64_eq 0.4 (-2) 7205759403792794 (by norm_num [abs_of_pos])
    (by norm_num [abs_of_pos]) (by norm_num) (roundHalfEven_near _ _ (by norm_num) (by norm_num))
  rw [h]
  norm_num

theorem round64_step1 :
    round64 (8986088631487693 / 70368744177664 + 3602879701896397 / 9007199254740992) =
      4507118064579379 / 35184372088832 := by
  have h := round64_eq (8986088631487693 / 70368744177664 + 3602879701896397 / 9007199254740992)
    7 4507118064579379 (by norm_num [abs_of_pos]) (by norm_num [abs_of_pos]) (by norm_num)
    (roundHalfEven_near _ _ (by norm_num) (by norm_num))
  rw [h]
  norm_num

theorem round64_step2 :
    round64 (4507118064579379 / 35184372088832 + -(3602879701896397 / 9007199254740992)) =
      2246522157871923 / 17592186044416 := by
  have h := round64_eq (4507118064579379 / 35184372088832 + -(3602879701896397 / 9007199254740992))
    6 8986088631487692 (by norm_num [abs_of_pos]) (by norm_num [abs_of_pos]) (by norm_num)
    (roundHalfEven_near _ _ (by norm_num) (by norm_num))
  rw [h]
  norm_num

theorem round64_edge_x : round64 (1024 + 1 / 2 ^ 42) = 1024 + 1 / 2 ^ 42 := by
  have h := round64_eq (1024 + 1 / 2 ^ 42) 10 4503599627370497
    (by norm_num [abs_of_pos]) (by norm_num [abs_of_pos]) (by norm_num)
    (roundHalfEven_near _ _ (by norm_num) (by norm_num))
  rw [h]
  norm_num

theorem round64_edge_v : round64 (-(1 / 2 ^ 43)) = -(1 / 2 ^ 43) := by
  have h := round64_eq (-(1 / 2 ^ 43)) (-43) (-4503599627370496)
    (by norm_num [abs_of_pos]) (by norm_num [abs_of_pos]) (by norm_num)
    (roundHalfEven_near _ _ (by norm_num) (by norm_num))
  rw [h]
  norm_num

theorem round64_edge_sum : round64 (1024 + 1 / 2 ^ 42 + -(1 / 2 ^ 43)) = 1024 := by
  have h := round64_eq (1024 + 1 / 2 ^ 42 + -(1 / 2 ^ 43)) 10 4503599627370496
    (by norm_num [abs_of_pos]) (by norm_num [abs_of_pos]) (by norm_num)
    (roundHalfEven_tie _ _ (by norm_num) (by norm_num))
  rw [h]
  norm_num

theorem round64_150 : round64 150 = 150 := by
  have h := round64_eq 150 7 5277655813324800 (by norm_num [abs_of_pos])
    (by norm_num [abs_of_pos]) (by norm_num) (roundHalfEven_near _ _ (by norm_num) (by norm_num))
  rw [h]
  norm_num

theorem round64_150_5 : round64 (150 + 0.5) = 150 + 0.5 := by
  have h := round64_eq (150 + 0.5) 7 5295247999369216 (by norm_num [abs_of_pos])
    (by norm_num [abs_of_pos]) (by norm_num) (roundHalfEven_near _ _ (by norm_num) (by norm_num))
  rw [h]
  norm_num

/-- The claim C9 as stated fails on binary64 additions.  On a 100-wide canvas
the particle at `x = 127.7` with `speedX = 0.4` (the binary64 values of these
literals) has `x > W + |speedX|`, yet two updates bring it to a smaller `x`
(`127.69999999999999`), not back to its own.  On a 1024-wide canvas the particle
at `x = 1024 + 2 ^ (-42)` with `speedX = -2 ^ (-43)`, both binary64 values, has
`x > W + |speedX|`, yet one update puts it at `x = 1024`, which is not beyond the
width, and leaves `speedX` as it was. -/
theorem stuck_outside_counterexample :
    (round64 127.7 > 100 + |round64 0.4| ∧
      (updates64 ⟨100, 200⟩ 2 ⟨round64 127.7, 100, 1, round64 0.4, 0⟩).x < round64 127.7) ∧
    (round64 (1024 + 1 / 2 ^ 42) = 1024 + 1 / 2 ^ 42 ∧
      round64 (-(1 / 2 ^ 43)) = -(1 / 2 ^ 43) ∧
      (1024 + 1 / 2 ^ 42 : ℚ) > 1024 + |(-(1 / 2 ^ 43) : ℚ)| ∧
      (updates64 ⟨1024, 200⟩ 1
        ⟨1024 + 1 / 2 ^ 42, 100, 1, -(1 / 2 ^ 43), 0⟩).x = 1024 ∧
      ¬ (updates64 ⟨1024, 200⟩ 1
        ⟨1024 + 1 / 2 ^ 42, 100, 1, -(1 / 2 ^ 43), 0⟩).x > 1024 ∧
      (updates64 ⟨1024, 200⟩ 1
        ⟨1024 + 1 / 2 ^ 42, 100, 1, -(1 / 2 ^ 43), 0⟩).speedX =
          -(1 / 2 ^ 43)) := by
  have hx1 : (updates64 ⟨1024, 200⟩ 1
      ⟨1024 + 1 / 2 ^ 42, 100, 1, -(1 / 2 ^ 43), 0⟩).x = 1024 := by
    have h : (updates64 ⟨1024, 200⟩ 1
        ⟨1024 + 1 / 2 ^ 42, 100, 1, -(1 / 2 ^ 43), 0⟩).x =
        round64 (1024 + 1 / 2 ^ 42 + -(1 / 2 ^ 43)) := rfl
    rw [h, round64_edge_sum]
  refine ⟨⟨?_, ?_⟩, round64_edge_x, round64_edge_v, ?_, hx1, ?_, ?_⟩
  · rw [round64_lit_x, round64_lit_v]
    norm_num [abs_of_pos]
  · have h : (updates64 ⟨100, 200⟩ 2 ⟨round64 127.7, 100, 1, round64 0.4, 0⟩).x =
        round64 ((Particle.update64 ⟨100, 200⟩ ⟨round64 127.7, 100, 1, round64 0.4, 0⟩).x +
          (Particle.update64 ⟨100, 200⟩ ⟨round64 127.7, 100, 1, round64 0.4, 0⟩).speedX) := rfl
    rw [h, update64_x, update64_speedX]
    dsimp only
    rw [round64_lit_x, round64_lit_v, round64_step1, if_pos (Or.inr (by norm_num)),
      round64_step2]
    norm_num
  · norm_num [abs_of_pos]
  · rw [hx1]
    norm_num
  · have h : (updates64 ⟨1024, 200⟩ 1
        ⟨1024 + 1 / 2 ^ 42, 100, 1, -(1 / 2 ^ 43), 0⟩).speedX =
        (Particle.update64 ⟨1024, 200⟩
          ⟨1024 + 1 / 2 ^ 42, 100, 1, -(1 / 2 ^ 43), 0⟩).speedX := rfl
    rw [h, update64_speedX]
    dsimp only
    rw [round64_edge_sum, if_neg (by norm_num)]

/-- The two horizontal states a particle beyond the right edge alternates
between when its first addition is exact. -/
theorem update64_far (c : Canvas) (x v : ℚ) (q : Particle) (h : x > c.width + |v|)
    (hx : round64 x = x) (hs : round64 (x + v) = x + v)
    (hq : (q.x = x ∧ q.speedX = v) ∨ (q.x = x + v ∧ q.speedX = -v)) :
    (((Particle.update64 c q).x = x ∧ (Particle.update64 c q).speedX = v) ∨
      ((Particle.update64 c q).x = x + v ∧ (Particle.update64 c q).speedX = -v)) ∧
    (Particle.update64 c q).speedX = -q.speedX := by
  have h1 := neg_abs_le v
  have h3 := abs_nonneg v
  rw [update64_x, update64_speedX]
  rcases hq with ⟨hqx, hqv⟩ | ⟨hqx, hqv⟩
  · rw [hqx, hqv, hs, if_pos (Or.inr (by linarith))]
    exact ⟨Or.inr ⟨rfl, rfl⟩, rfl⟩
  · have hback : x + v + -v = x := by ring
    rw [hqx, hqv, hback, hx, if_pos (Or.inr (by linarith))]
    exact ⟨Or.inl ⟨rfl, by ring⟩, rfl⟩

theorem updates64_far (c : Canvas) (x v : ℚ) (p : Particle) (h : x > c.width + |v|)
    (hx : round64 x = x) (hs : round64 (x + v) = x + v) (hp : p.x = x ∧ p.speedX = v)
    (n : Nat) :
    ((updates64 c n p).x = x ∧ (updates64 c n p).speedX = v) ∨
      ((updates64 c n p).x = x + v ∧ (updates64 c n p).speedX = -v) := by
  induction n with
  | zero => exact Or.inl hp
  | succ n ih => rw [updates64_succ]; exact (update64_far c x v _ h hx hs ih).1

/-- C9 (amended): a particle with `x > W + |speedX|` whose `x` is a binary64
value and whose sum `x + speedX` is one too, so that the addition is computed
without rounding, has its `speedX` negated by every update, is restored in `x`
and `speedX` by every two consecutive updates, and has `x > W` after any number
of updates: it never re-enters the canvas. -/
theorem stuck_outside (W H : ℚ) (p : Particle) (h : p.x > W + |p.speedX|)
    (hx : round64 p.x = p.x) (hs : round64 (p.x + p.speedX) = p.x + p.speedX) (n : Nat) :
    (updates64 ⟨W, H⟩ n p).x > W ∧
    (updates64 ⟨W, H⟩ (n + 1) p).speedX = -(updates64 ⟨W, H⟩ n p).speedX ∧
    (updates64 ⟨W, H⟩ (n + 2) p).x = (updates64 ⟨W, H⟩ n p).x ∧
    (updates64 ⟨W, H⟩ (n + 2) p).speedX = (updates64 ⟨W, H⟩ n p).speedX := by
  have hW : p.x > (Canvas.mk W H).width + |p.speedX| := h
  have h1 := neg_abs_le p.speedX
  have h3 := abs_nonneg p.speedX
  have hn := updates64_far ⟨W, H⟩ p.x p.speedX p hW hx hs ⟨rfl, rfl⟩ n
  have hn1 := update64_far ⟨W, H⟩ p.x p.speedX _ hW hx hs hn
  have hn2 := update64_far ⟨W, H⟩ p.x p.speedX _ hW hx hs hn1.1
  rw [updates64_succ ⟨W, H⟩ (n + 1), updates64_succ ⟨W, H⟩ n]
  refine ⟨?_, hn1.2, ?_, ?_⟩
  · rcases hn with ⟨hqx, _⟩ | ⟨hqx, _⟩ <;> rw [hqx] <;> linarith
  · rcases hn with ⟨hqx, hqv⟩ | ⟨hqx, hqv⟩
    · rcases hn2.1 with ⟨h2x, _⟩ | ⟨h2x, h2v⟩
      · rw [h2x, hqx]
      · have hv := hn2.2
        rw [hn1.2, hqv, h2v] at hv
        have hv0 : p.speedX = 0 := by linarith
        rw [h2x, hqx, hv0, add_zero]
    · rcases hn2.1 with ⟨h2x, h2v⟩ | ⟨h2x, _⟩
      · have hv := hn2.2
        rw [hn1.2, hqv, h2v] at hv
        have hv0 : p.speedX = 0 := by linarith
        rw [h2x, hqx, hv0, add_zero]
      · rw [h2x, hqx]
  · rw [hn2.2, hn1.2, neg_neg]

/-- Witness of C9 (amended): a particle at `x = 150` with `speedX = 0.5` on a
200-wide canvas, after the resize handler has shrunk the canvas to width 100, is
still to the right of the canvas after 7 updates; `150` and `150.5` are binary64
values. -/
theorem stuck_outside_witness :
    (150 : ℚ) > (resize 100 200 ⟨⟨200, 200⟩, [⟨150, 100, 1, 0.5, 0⟩]⟩).canvas.width + |(0.5 : ℚ)| ∧
    (updates64 ⟨100, 200⟩ 7 ⟨150, 100, 1, 0.5, 0⟩).x > 100 :=
  ⟨by norm_num [resize, abs_of_pos],
    (stuck_outside 100 200 ⟨150, 100, 1, 0.5, 0⟩ (by norm_num [abs_of_pos]) round64_150
      round64_150_5 7).1⟩

/-! ## Stroke alpha -/

theorem sqrtFloor_sq (n : Nat) : sqrtFloor ((n : ℚ) * n) = n := by
  unfold sqrtFloor
  have h : ⌊(n : ℚ) * n⌋ = ((n * n : Nat) : Int) := by
    rw [← Nat.cast_mul, ← Int.cast_natCast, Int.floor_intCast]
  rw [h, Int.toNat_natCast, Nat.sqrt_eq]

theorem sqrtFloor_2500 : sqrtFloor 2500 = 50 := by
  have h := sqrtFloor_sq 50
  norm_num at h
  exact h

/-- The claim C5 as stated fails: no distance `d` with `40 ≤ d < 100` gives a
negative stroke alpha `0.2 - d / 500`. -/
theorem negative_alpha_counterexample :
    ¬ ∃ d : ℚ, 40 ≤ d ∧ d < 100 ∧ strokeAlpha d < 0 := by
  rintro ⟨d, _, h100, hneg⟩
  unfold strokeAlpha at hneg
  norm_num at hneg
  linarith

/-- C5 (amended): every stroke alpha the loop body passes to the renderer is
the value `0.2 - d / 500` of a distance `d < 100` and is strictly positive (and
at most `0.2` when `d` is not negative); the formula is negative exactly for
`d > 100`, where no line is drawn. -/
theorem drawn_alpha_pos (msqrt : ℚ → ℚ) (a b : Particle) (alpha : ℚ)
    (h : DrawCmd.strokeStyle alpha ∈ connectPair msqrt a b) :
    msqrt ((a.x - b.x) * (a.x - b.x) + (a.y - b.y) * (a.y - b.y)) < 100 ∧
    alpha = 0.2 - msqrt ((a.x - b.x) * (a.x - b.x) + (a.y - b.y) * (a.y - b.y)) / 500 ∧
    0 < alpha ∧
    (0 ≤ msqrt ((a.x - b.x) * (a.x - b.x) + (a.y - b.y) * (a.y - b.y)) → alpha ≤ 0.2) ∧
    (∀ d : ℚ, strokeAlpha d < 0 ↔ 100 < d) := by
  have hall : ∀ d : ℚ, strokeAlpha d < 0 ↔ 100 < d := by
    intro d
    unfold strokeAlpha
    constructor <;> intro hd <;> norm_num at * <;> linarith
  unfold connectPair at h
  simp only [] at h
  split_ifs at h with hd
  · simp at h
    subst h
    refine ⟨hd, rfl, ?_, ?_, hall⟩
    · unfold strokeAlpha; norm_num; linarith
    · intro h0; unfold strokeAlpha; norm_num; linarith
  · simp at h

/-- Witness of C5 (amended): two particles 50 apart are joined with alpha `0.1`. -/
theorem drawn_alpha_pos_witness :
    DrawCmd.strokeStyle 0.1 ∈ connectPair sqrtFloor ⟨10, 100, 1, 0, 0⟩ ⟨60, 100, 1, 0, 0⟩ ∧
    (0 : ℚ) < 0.1 :=
  ⟨by norm_num [connectPair, sqrtFloor_2500, strokeAlpha],
    (drawn_alpha_pos sqrtFloor ⟨10, 100, 1, 0, 0⟩ ⟨60, 100, 1, 0, 0⟩ 0.1
      (by norm_num [connectPair, sqrtFloor_2500, strokeAlpha])).2.2.1⟩

/-! ## Connecting lines of a frame -/

theorem sum_map_range (g : Nat → Nat) (n : Nat) :
    ((List.range n).map g).sum = ∑ i in Finset.range n, g i := by
  induction n with
  | zero => rfl
  | succ n ih => simp [List.range_succ, Finset.sum_range_succ, ih]

theorem sum_map_range' (g : Nat → Nat) (s n : Nat) :
    ((List.range' s n).map g).sum = ∑ j in Finset.Ico s (s + n), g j := by
  rw [List.range'_eq_map_range, List.map_map, sum_map_range, Finset.sum_Ico_eq_sum_range]
  simp

theorem count_flatMap (c : DrawCmd) (l : List Nat) (g : Nat → List DrawCmd) :
    (l.flatMap g).count c = (l.map fun i => (g i).count c).sum := by
  rw [List.flatMap_def, List.count_flatten, List.map_map]
  rfl

theorem connectPair_count_stroke (msqrt : ℚ → ℚ) (a b : Particle) :
    (connectPair msqrt a b).count DrawCmd.stroke =
      if msqrt ((a.x - b.x) * (a.x - b.x) + (a.y - b.y) * (a.y - b.y)) < 100 then 1 else 0 := by
  unfold connectPair
  simp only []
  split_ifs <;> simp

theorem connectAt_count_stroke (msqrt : ℚ → ℚ) (ps : List Particle) (i j : Nat) :
    (connectAt msqrt ps i j).count DrawCmd.stroke = if closeAt msqrt ps i j then 1 else 0 := by
  unfold connectAt closeAt
  cases ps[i]? <;> cases ps[j]? <;> simp [connectPair_count_stroke]

theorem connectNearby_count_stroke (msqrt : ℚ → ℚ) (ps : List Particle) :
    (connectNearby msqrt ps).count DrawCmd.stroke =
      ∑ i in Finset.range ps.length, ∑ j in Finset.Ico (i + 1) ps.length,
        if closeAt msqrt ps i j then 1 else 0 := by
  unfold connectNearby
  rw [count_flatMap, sum_map_range]
  refine Finset.sum_congr rfl fun i hi => ?_
  rw [count_flatMap, sum_map_range']
  have hlt : i + 1 ≤ ps.length := Finset.mem_range.mp hi
  rw [Nat.add_sub_cancel' hlt]
  exact Finset.sum_congr rfl fun j _ => connectAt_count_stroke msqrt ps i j

theorem draw_count_stroke (ps : List Particle) :
    (ps.flatMap Particle.draw).count DrawCmd.stroke = 0 := by
  induction ps with
  | nil => rfl
  | cons p ps ih =>
    rw [List.flatMap_cons, List.count_append, ih]
    simp [Particle.draw]

theorem animate_count_stroke (msqrt : ℚ → ℚ) (f : Field) :
    (animate msqrt f).2.count DrawCmd.stroke =
      ∑ i in Finset.range (animate msqrt f).1.particles.length,
        ∑ j in Finset.Ico (i + 1) (animate msqrt f).1.particles.length,
          if closeAt msqrt (animate msqrt f).1.particles i j then 1 else 0 := by
  simp only [animate]
  rw [List.count_cons, List.count_append, draw_count_stroke, connectNearby_count_stroke]
  simp

theorem connectAt_within (msqrt : ℚ → ℚ) (ps : List Particle) (i j : Nat)
    (hij : i < j) (hj : j < ps.length) :
    connectAt msqrt ps i j <:+: connectNearby msqrt ps := by
  unfold connectNearby
  have hi : i ∈ List.range ps.length := List.mem_range.mpr (lt_trans hij hj)
  have hjm : j ∈ List.range' (i + 1) (ps.length - (i + 1)) := by
    rw [List.mem_range'_1]
    omega
  exact (List.infix_of_mem_flatten (List.mem_map_of_mem _ hjm)).trans
    (List.infix_of_mem_flatten
      (List.mem_map_of_mem
        (fun i => (List.range' (i + 1) (ps.length - (i + 1))).flatMap
          fun j => connectAt msqrt ps i j) hi))

theorem connectNearby_within (msqrt : ℚ → ℚ) (f : Field) :
    connectNearby msqrt (animate msqrt f).1.particles <:+: (animate msqrt f).2 := by
  simp only [animate]
  exact ((List.suffix_append _ _).trans (List.suffix_cons _ _)).isInfix

theorem card_close_pairs (c : Nat → Nat → Bool) (n : Nat) :
    ((Finset.range n ×ˢ Finset.range n).filter fun q => q.1 < q.2 ∧ c q.1 q.2 = true).card =
      ∑ i in Finset.range n, ∑ j in Finset.Ico (i + 1) n, if c i j then 1 else 0 := by
  rw [Finset.card_filter, Finset.sum_product]
  refine Finset.sum_congr rfl fun i _ => ?_
  have hf : (Finset.range n).filter (fun j => i < j) = Finset.Ico (i + 1) n := by
    ext j
    simp only [Finset.mem_filter, Finset.mem_range, Finset.mem_Ico]
    omega
  rw [← hf, Finset.sum_filter]
  refine Finset.sum_congr rfl fun j _ => ?_
  by_cases h1 : i < j <;> by_cases h2 : c i j = true <;> simp [h1, h2]

/-- C3: in the frame produced by `animate`, for particles `a` and `b` at indices
`i < j` of the updated array and `d = Math.sqrt(dx * dx + dy * dy)`: iteration
`(i, j)` strokes a line exactly when `d < 100`; when it does, its calls are
`strokeStyle` with alpha `0.2 - d / 500`, `lineWidth 1`, `beginPath`, `moveTo a`,
`lineTo b`, `stroke`, and they occur consecutively in the frame; the number of
`stroke` calls of the frame is the number of index pairs `i < j` whose particles are
less than 100 apart.  At `d = 50` the alpha is `0.1`; at `d = 100` nothing is
drawn for the pair. -/
theorem connect_spec (msqrt : ℚ → ℚ) (f : Field) (i j : Nat) (a b : Particle) (d : ℚ)
    (hij : i < j)
    (ha : (animate msqrt f).1.particles[i]? = some a)
    (hb : (animate msqrt f).1.particles[j]? = some b)
    (hd : d = msqrt ((a.x - b.x) * (a.x - b.x) + (a.y - b.y) * (a.y - b.y))) :
    (DrawCmd.stroke ∈ connectAt msqrt (animate msqrt f).1.particles i j ↔ d < 100) ∧
    (d < 100 →
      connectAt msqrt (animate msqrt f).1.particles i j =
        [DrawCmd.strokeStyle (0.2 - d / 500), DrawCmd.lineWidth 1, DrawCmd.beginPath,
          DrawCmd.moveTo a.x a.y, DrawCmd.lineTo b.x b.y, DrawCmd.stroke]) ∧
    (¬ d < 100 → connectAt msqrt (animate msqrt f).1.particles i j = []) ∧
    connectAt msqrt (animate msqrt f).1.particles i j <:+: (animate msqrt f).2 ∧
    (closeAt msqrt (animate msqrt f).1.particles i j = true ↔ d < 100) ∧
    (animate msqrt f).2.count DrawCmd.stroke =
      ((Finset.range (animate msqrt f).1.particles.length ×ˢ
          Finset.range (animate msqrt f).1.particles.length).filter
        fun q => q.1 < q.2 ∧ closeAt msqrt (animate msqrt f).1.particles q.1 q.2 = true).card ∧
    (d = 50 →
      connectAt msqrt (animate msqrt f).1.particles i j =
        [DrawCmd.strokeStyle 0.1, DrawCmd.lineWidth 1, DrawCmd.beginPath,
          DrawCmd.moveTo a.x a.y, DrawCmd.lineTo b.x b.y, DrawCmd.stroke]) ∧
    (d = 100 → connectAt msqrt (animate msqrt f).1.particles i j = []) := by
  have hj : j < (animate msqrt f).1.particles.length := by
    rcases List.getElem?_eq_some_iff.mp hb with ⟨h, _⟩
    exact h
  have hat : connectAt msqrt (animate msqrt f).1.particles i j = connectPair msqrt a b := by
    unfold connectAt
    rw [ha, hb]
  have hyes : d < 100 → connectPair msqrt a b =
      [DrawCmd.strokeStyle (0.2 - d / 500), DrawCmd.lineWidth 1, DrawCmd.beginPath,
        DrawCmd.moveTo a.x a.y, DrawCmd.lineTo b.x b.y, DrawCmd.stroke] := by
    intro h
    rw [hd] at h
    unfold connectPair
    simp only [if_pos h, strokeAlpha, hd]
  have hno : ¬ d < 100 → connectPair msqrt a b = [] := by
    intro h
    rw [hd] at h
    unfold connectPair
    simp only [if_neg h]
  refine ⟨?_, ?_, ?_, ?_, ?_, ?_, ?_, ?_⟩
  · rw [hat]
    constructor
    · intro hm
      by_contra hn
      rw [hno hn] at hm
      simp at hm
    · intro h
      rw [hyes h]
      simp
  · intro h
    rw [hat, hyes h]
  · intro h
    rw [hat, hno h]
  · exact (connectAt_within msqrt _ i j hij hj).trans (connectNearby_within msqrt f)
  · unfold closeAt
    rw [ha, hb, hd]
    simp
  · rw [animate_count_stroke, card_close_pairs]
  · intro h
    have h100 : d < 100 := by rw [h]; norm_num
    rw [hat, hyes h100, h]
    norm_num
  · intro h
    have h100 : ¬ d < 100 := by rw [h]; norm_num
    rw [hat, hno h100]

/-- Witness of C3: a frame of two resting particles 50 apart on a 200 by 200
canvas joins them with alpha `0.1`. -/
theorem connect_spec_witness :
    connectAt sqrtFloor
        (animate sqrtFloor ⟨⟨200, 200⟩, [⟨10, 100, 1, 0, 0⟩, ⟨60, 100, 1, 0, 0⟩]⟩).1.particles 0 1 =
      [DrawCmd.strokeStyle 0.1, DrawCmd.lineWidth 1, DrawCmd.beginPath,
        DrawCmd.moveTo 10 100, DrawCmd.lineTo 60 100, DrawCmd.stroke] :=
  (connect_spec sqrtFloor ⟨⟨200, 200⟩, [⟨10, 100, 1, 0, 0⟩, ⟨60, 100, 1, 0, 0⟩]⟩ 0 1
    ⟨10, 100, 1, 0, 0⟩ ⟨60, 100, 1, 0, 0⟩ 50 (by decide)
    (by norm_num [animate, updateAll, Particle.update])
    (by norm_num [animate, updateAll, Particle.update])
    (by norm_num [sqrtFloor_2500])).2.2.2.2.2.2.1 rfl

/-! ## Resize and frames -/

/-- C6: the resize handler stores `(w, h)` as the canvas size and leaves the
particle array, hence every position, velocity and size, as it was; applying it
twice with the same `(w, h)` gives the same state as applying it once. -/
theorem resize_spec (w h : ℚ) (f : Field) :
    (resize w h f).canvas.width = w ∧ (resize w h f).canvas.height = h ∧
    (resize w h f).particles = f.particles ∧
    resize w h (resize w h f) = resize w h f :=
  ⟨rfl, rfl, rfl, rfl⟩

theorem createParticles_length (canvas : Canvas) (rand : Nat → ℚ) (N : Nat) :
    (createParticles canvas rand N).length = N := by
  simp [createParticles]

theorem animate_length (msqrt : ℚ → ℚ) (f : Field) :
    (animate msqrt f).1.particles.length = f.particles.length := by
  simp [animate, updateAll]

theorem frames_length (msqrt : ℚ → ℚ) (k : Nat) (f : Field) :
    (frames msqrt k f).particles.length = f.particles.length := by
  induction k generalizing f with
  | zero => rfl
  | succ k ih => rw [frames, ih, animate_length]

/-- C7: after `k` frames the particle array has the length it had before them,
whatever that length was; in particular a population of `N` particles made by the
creation loop still has `N` particles, and within a frame the update pass keeps
the length while the rendering pass leaves the particles produced by the update
pass as they are. -/
theorem population_stable (msqrt : ℚ → ℚ) (k : Nat) (f : Field) (rand : Nat → ℚ) (N : Nat) :
    (frames msqrt k f).particles.length = f.particles.length ∧
    (frames msqrt k ⟨f.canvas, createParticles f.canvas rand N⟩).particles.length = N ∧
    (updateAll f.canvas f.particles).length = f.particles.length ∧
    (animate msqrt f).1.particles = updateAll f.canvas f.particles := by
  refine ⟨frames_length msqrt k f, ?_, ?_, rfl⟩
  · rw [frames_length, createParticles_length]
  · simp [updateAll]

/-! ## Typewriter -/

theorem substring_zero (s : String) (e : Int) :
    substring s 0 e = String.mk (s.data.take e.toNat) := by
  unfold substring
  simp only [Int.toNat_zero, Nat.zero_min, Nat.zero_le, min_eq_left, max_eq_right, Nat.sub_zero,
    List.drop_zero]
  congr 1
  rw [String.length]
  rcases le_total e.toNat s.data.length with h | h
  · rw [min_eq_left h]
  · rw [min_eq_right h, List.take_of_length_le h, List.take_of_length_le le_rfl]

theorem start_inv (text : String) : TypeInv (Typewriter.start text) := by
  refine ⟨"Full Stack Developer", rfl, le_rfl, ?_, ?_, ?_⟩
  · show (0 : Int) ≤ ("Full Stack Developer".length : Int)
    decide
  · intro h
    simp [Typewriter.start] at h
  · intro _
    show (0 : Int) < ("Full Stack Developer".length : Int)
    decide

theorem phrases_next (i : Nat) (cur : String) (h : phrases[i]? = some cur) :
    ∃ nxt, phrases[(i + 1) % phrases.length]? = some nxt ∧ (0 : Int) < (nxt.length : Int) := by
  have hi : i < 4 := (List.getElem?_eq_some_iff.mp h).1
  interval_cases i
  · exact ⟨"UI/UX Enthusiast", rfl, by decide⟩
  · exact ⟨"Problem Solver", rfl, by decide⟩
  · exact ⟨"Code Craftsman", rfl, by decide⟩
  · exact ⟨"Full Stack Developer", rfl, by decide⟩

theorem type_inv (s : Typewriter) (h : TypeInv s) :
    ∃ s1 delay, type s = some (s1, delay) ∧ TypeInv s1 ∧ ShowsTyped s1 := by
  obtain ⟨cur, hcur, h0, hle, hdel, htyp⟩ := h
  cases hd : s.isDeleting with
  | false =>
    have hlt := htyp hd
    by_cases hc : s.charIndex + 1 = (cur.length : Int)
    · refine ⟨⟨s.phraseIndex, s.charIndex + 1, true, substring cur 0 (s.charIndex + 1)⟩, 2000,
        ?_, ?_, ?_⟩
      · simp [type, hcur, hd, hc]
      · exact ⟨cur, hcur, by simp only []; omega, by simp only []; omega,
          fun _ => by simp only []; omega, fun hf => by simp at hf⟩
      · exact ⟨cur, hcur, substring_zero _ _⟩
    · refine ⟨⟨s.phraseIndex, s.charIndex + 1, false, substring cur 0 (s.charIndex + 1)⟩, 100,
        ?_, ?_, ?_⟩
      · simp [type, hcur, hd, hc]
      · exact ⟨cur, hcur, by simp only []; omega, by simp only []; omega,
          fun hf => by simp at hf, fun _ => by simp only []; omega⟩
      · exact ⟨cur, hcur, substring_zero _ _⟩
  | true =>
    have hge := hdel hd
    by_cases hc : s.charIndex - 1 = 0
    · obtain ⟨nxt, hnxt, hpos⟩ := phrases_next s.phraseIndex cur hcur
      refine ⟨⟨(s.phraseIndex + 1) % phrases.length, s.charIndex - 1, false,
        substring cur 0 (s.charIndex - 1)⟩, 500, ?_, ?_, ?_⟩
      · simp [type, hcur, hd, hc]
      · exact ⟨nxt, hnxt, by simp only []; omega, by simp only []; omega,
          fun hf => by simp at hf, fun _ => by simp only []; omega⟩
      · refine ⟨nxt, hnxt, ?_⟩
        simp only [substring_zero, hc]
        rfl
    · refine ⟨⟨s.phraseIndex, s.charIndex - 1, true, substring cur 0 (s.charIndex - 1)⟩, 50,
        ?_, ?_, ?_⟩
      · simp [type, hcur, hd, hc]
      · exact ⟨cur, hcur, by simp only []; omega, by simp only []; omega,
          fun _ => by simp only []; omega, fun hf => by simp at hf⟩
      · exact ⟨cur, hcur, substring_zero _ _⟩

theorem ticks_inv (n : Nat) (s : Typewriter) (h : TypeInv s) :
    ∃ s1, ticks n s = some s1 ∧ TypeInv s1 := by
  induction n generalizing s with
  | zero => exact ⟨s, rfl, h⟩
  | succ n ih =>
    obtain ⟨s1, delay, ht, hi, _⟩ := type_inv s h
    obtain ⟨s2, h2, hi2⟩ := ih s1 hi
    exact ⟨s2, by rw [ticks, ht]; exact h2, hi2⟩

theorem ticks_shows (n : Nat) (s : Typewriter) (h : TypeInv s) :
    ∃ s1, ticks (n + 1) s = some s1 ∧ ShowsTyped s1 := by
  induction n generalizing s with
  | zero =>
    obtain ⟨s1, delay, ht, _, hs⟩ := type_inv s h
    exact ⟨s1, by rw [ticks, ht]; rfl, hs⟩
  | succ n ih =>
    obtain ⟨s1, delay, ht, hi, _⟩ := type_inv s h
    obtain ⟨s2, h2, hs2⟩ := ih s1 hi
    exact ⟨s2, by rw [ticks, ht]; exact h2, hs2⟩

/-- The claim C10 as stated fails before the first tick: started on an element
whose text is `Hello`, after zero ticks `charIndex` is `0` and the text shown is
still `Hello`, which is not the first `0` characters of any phrase. -/
theorem typewriter_text_counterexample :
    ticks 0 (Typewriter.start "Hello") = some ⟨0, 0, false, "Hello"⟩ ∧
    ¬ ∃ cur ∈ phrases,
      (Typewriter.start "Hello").textContent =
        String.mk (cur.data.take (Typewriter.start "Hello").charIndex.toNat) := by
  refine ⟨rfl, ?_⟩
  rintro ⟨cur, _, h⟩
  have h0 : (Typewriter.start "Hello").textContent = "Hello" := rfl
  have h1 : (Typewriter.start "Hello").charIndex.toNat = 0 := rfl
  rw [h0, h1, List.take_zero] at h
  exact absurd h (by decide)

/-- C10 (amended): started at `phraseIndex = 0`, `charIndex = 0`,
`isDeleting = false`, the typewriter runs any number `n` of ticks without a
failing array read, and then `phraseIndex < 4`, `0 ≤ charIndex ≤` the length of
the current phrase, a deleting state has `charIndex ≥ 1` and a typing state has
`charIndex` below that length, so the index handed to `substring` by the next
tick lies within the phrase; after at least one tick (`n + 1` ticks) the text
shown is the first `charIndex` characters of the current phrase, a phrase of the
list. -/
theorem typewriter_invariant (text : String) (n : Nat) :
    (∃ s, ticks n (Typewriter.start text) = some s ∧
      s.phraseIndex < 4 ∧
      ∃ cur, phrases[s.phraseIndex]? = some cur ∧
        0 ≤ s.charIndex ∧ s.charIndex ≤ (cur.length : Int) ∧
        (s.isDeleting = true →
          1 ≤ s.charIndex ∧ 0 ≤ s.charIndex - 1 ∧ s.charIndex - 1 ≤ (cur.length : Int)) ∧
        (s.isDeleting = false →
          s.charIndex < (cur.length : Int) ∧ 0 ≤ s.charIndex + 1 ∧
            s.charIndex + 1 ≤ (cur.length : Int))) ∧
    (∃ s1, ticks (n + 1) (Typewriter.start text) = some s1 ∧
      ∃ cur ∈ phrases, phrases[s1.phraseIndex]? = some cur ∧
        s1.textContent = String.mk (cur.data.take s1.charIndex.toNat)) := by
  constructor
  · obtain ⟨s, hs, cur, hcur, h0, hle, hdel, htyp⟩ := ticks_inv n _ (start_inv text)
    refine ⟨s, hs, (List.getElem?_eq_some_iff.mp hcur).1, cur, hcur, h0, hle, ?_, ?_⟩
    · intro hd
      have := hdel hd
      omega
    · intro hd
      have := htyp hd
      omega
  · obtain ⟨s1, hs1, cur, hcur, htext⟩ := ticks_shows n _ (start_inv text)
    exact ⟨s1, hs1, cur, List.getElem?_mem hcur, hcur, htext⟩

end Portfolio
